import Mathlib

/-!
Shallow embedding of `src/modernizer.py` (Enterprise COBOL → BC Modernization
Engine).  Python strings are modelled as `List Char`; Python dictionaries
produced by `json.loads` are modelled by the inductive type `JVal`; the
remote model endpoint is an explicit oracle parameter.  UI side effects
(`st.progress`, `st.warning`, …) have no observable effect on the data flow
and are dropped.
-/

namespace Modernizer

/-- JSON values as produced by `json.loads` / consumed by `json.dumps`.
Floating-point literals are outside the model (none of the verified claims
depends on them); integers are exact, as in Python. -/
inductive JVal where
  | jnull : JVal
  | jbool : Bool → JVal
  | jnum : Int → JVal
  | jstr : List Char → JVal
  | jarr : List JVal → JVal
  | jobj : List (List Char × JVal) → JVal

mutual
/-- Structural (syntactic) equality of JSON trees.  This is finer than
Python's `==` on parsed JSON (which ignores object key order and
identifies `True` with `1`); it is used only to give `JVal` a
`DecidableEq` instance for derived instances and decidable evaluation,
never to model a comparison the program performs.  Python's `==` is
`pyEq` below. -/
def JVal.beq : JVal → JVal → Bool
  | .jnull, .jnull => true
  | .jbool a, .jbool b => a == b
  | .jnum a, .jnum b => a == b
  | .jstr a, .jstr b => a == b
  | .jarr a, .jarr b => JVal.beqArr a b
  | .jobj a, .jobj b => JVal.beqObj a b
  | _, _ => false

/-- Structural equality of JSON arrays. -/
def JVal.beqArr : List JVal → List JVal → Bool
  | [], [] => true
  | x :: xs, y :: ys => JVal.beq x y && JVal.beqArr xs ys
  | _, _ => false

/-- Structural equality of JSON object entry lists. -/
def JVal.beqObj : List (List Char × JVal) → List (List Char × JVal) → Bool
  | [], [] => true
  | (k1, v1) :: xs, (k2, v2) :: ys => k1 == k2 && JVal.beq v1 v2 && JVal.beqObj xs ys
  | _, _ => false
end

/-- Lemma: `JVal.beq` agrees with propositional equality (proved for all three
mutual workers at once); packaged as a definition since the `DecidableEq`
instance below is built from it. -/
def JVal.beq_iff_all :
    (∀ a b : JVal, (JVal.beq a b = true ↔ a = b)) ∧
      (∀ a b : List (List Char × JVal), (JVal.beqObj a b = true ↔ a = b)) ∧
        (∀ a b : List JVal, (JVal.beqArr a b = true ↔ a = b)) := by
  refine JVal.beq.mutual_induct
    (fun a b => JVal.beq a b = true ↔ a = b)
    (fun a b => JVal.beqObj a b = true ↔ a = b)
    (fun a b => JVal.beqArr a b = true ↔ a = b)
    ?_ ?_ ?_ ?_ ?_ ?_ ?_ ?_ ?_ ?_ ?_ ?_ ?_
  · simp [JVal.beq]
  · intro a b; simp [JVal.beq]
  · intro a b; simp [JVal.beq]
  · intro a b; simp [JVal.beq]
  · intro a b ih; simp [JVal.beq, ih]
  · intro a b ih; simp [JVal.beq, ih]
  · intro t x h1 h2 h3 h4 h5 h6
    cases t <;> cases x <;> simp_all [JVal.beq]
  · simp [JVal.beqArr]
  · intro x xs y ys ih1 ih3; simp [JVal.beqArr, ih1, ih3]
  · intro t x h1 h2
    cases t with
    | nil =>
      cases x with
      | nil => exact (h1 rfl rfl).elim
      | cons y ys => simp [JVal.beqArr]
    | cons z zs =>
      cases x with
      | nil => simp [JVal.beqArr]
      | cons y ys => exact (h2 z zs y ys rfl rfl).elim
  · simp [JVal.beqObj]
  · intro k1 v1 xs k2 v2 ys ih1 ih2; simp [JVal.beqObj, ih1, ih2, And.comm]
  · intro t x h1 h2
    cases t with
    | nil =>
      cases x with
      | nil => exact (h1 rfl rfl).elim
      | cons y ys => simp [JVal.beqObj]
    | cons z zs =>
      cases x with
      | nil => simp [JVal.beqObj]
      | cons y ys =>
        obtain ⟨k1, v1⟩ := z
        obtain ⟨k2, v2⟩ := y
        exact (h2 k1 v1 zs k2 v2 ys rfl rfl).elim

instance : DecidableEq JVal := fun a b =>
  decidable_of_iff _ (JVal.beq_iff_all.1 a b)

/-- Python `==` between a `bool` and an `int`: `True == 1` and
`False == 0` (in Python, `bool` is a subclass of `int`). -/
def pyBoolInt (b : Bool) (n : Int) : Bool :=
  if b then decide (n = 1) else decide (n = 0)

mutual
/-- Python's `==` on parsed-JSON values, the comparison used by `in` and
`not in` on lists of such values: `None`, strings and numbers compare by
value, `True == 1` and `False == 0`, lists compare elementwise, and
dictionaries compare by key set and per-key values, ignoring entry order.
Distinct types are otherwise unequal.  Scope: values produced by
`json.loads` — floats are outside the model and each object binds a key
once (`json.loads` keeps one binding per key), which the entry-list
lookups below rely on. -/
def pyEq : JVal → JVal → Bool
  | .jnull, .jnull => true
  | .jbool a, .jbool b => decide (a = b)
  | .jbool a, .jnum n => pyBoolInt a n
  | .jnum n, .jbool a => pyBoolInt a n
  | .jnum a, .jnum b => decide (a = b)
  | .jstr a, .jstr b => decide (a = b)
  | .jarr a, .jarr b => pyEqArr a b
  | .jobj a, .jobj b => pyEqEntries a b && pyEqEntries b a
  | _, _ => false
  termination_by a b => sizeOf a + sizeOf b

/-- Elementwise Python `==` of two JSON arrays of equal length. -/
def pyEqArr : List JVal → List JVal → Bool
  | [], [] => true
  | x :: xs, y :: ys => pyEq x y && pyEqArr xs ys
  | _, _ => false
  termination_by a b => sizeOf a + sizeOf b

/-- One inclusion of Python dict equality: every entry of the first object
is matched, by key, by a `pyEq`-equal value in the second.  Dict equality
is the conjunction of both inclusions (see `pyEq` on `jobj`). -/
def pyEqEntries : List (List Char × JVal) → List (List Char × JVal) → Bool
  | [], _ => true
  | (k, v) :: rest, b => pyEqFind k v b && pyEqEntries rest b
  termination_by a b => sizeOf a + sizeOf b

/-- Look up key `k` in an entry list and compare its value with `v` under
Python `==`; `false` when the key is absent. -/
def pyEqFind (k : List Char) (v : JVal) : List (List Char × JVal) → Bool
  | [] => false
  | (k2, w) :: b => if k = k2 then pyEq v w else pyEqFind k v b
  termination_by l => sizeOf v + sizeOf l
end

/-- One chat message, as in the `messages` lists of `modernizer.py`. -/
structure Msg where
  role : List Char
  content : List Char
  deriving DecidableEq

/-- The remote chat-completion endpoint, determinized: given the messages and
the attempt number, it either yields a parsed JSON value (a successful call
whose content parses) or fails (the call raised, or `json.loads` raised). -/
def Model : Type := List Msg → Nat → Option JVal

/-- Hexadecimal digit, lowercase, as used by Python's `json` unicode escapes. -/
def hexDigit (n : Nat) : Char :=
  if n < 10 then Char.ofNat (48 + n) else Char.ofNat (87 + n)

/-- Four lowercase hex digits of `n` (`n < 0x10000`). -/
def hex4 (n : Nat) : List Char :=
  [hexDigit (n / 4096 % 16), hexDigit (n / 256 % 16), hexDigit (n / 16 % 16), hexDigit (n % 16)]

/-- Unicode escape `\uXXXX` (with a surrogate pair beyond the BMP), as produced by
`json.dumps` with its default `ensure_ascii=True`. -/
def uEscape (n : Nat) : List Char :=
  if n < 0x10000 then
    '\\' :: 'u' :: hex4 n
  else
    '\\' :: 'u' :: hex4 (0xd800 + (n - 0x10000) / 0x400) ++
      '\\' :: 'u' :: hex4 (0xdc00 + (n - 0x10000) % 0x400)

/-- Escaping of one character inside a JSON string literal, following
CPython's `py_encode_basestring_ascii`: the named short escapes, and a
`\uXXXX` escape for every character outside `' '..'~'`. -/
def escChar (c : Char) : List Char :=
  if c = '"' then ['\\', '"']
  else if c = '\\' then ['\\', '\\']
  else if c = '\x08' then ['\\', 'b']
  else if c = '\x0c' then ['\\', 'f']
  else if c = '\n' then ['\\', 'n']
  else if c = '\r' then ['\\', 'r']
  else if c = '\t' then ['\\', 't']
  else if c.toNat < 0x20 || c.toNat > 0x7e then uEscape c.toNat
  else [c]

/-- JSON serialization of a string: quoted, characters escaped. -/
def dumpsKey (s : List Char) : List Char :=
  '"' :: (s.map escChar).flatten ++ ['"']

/-- Join a list of strings with a separator (`sep.join(...)` in Python). -/
def joinSep (sep : List Char) : List (List Char) → List Char
  | [] => []
  | [x] => x
  | x :: y :: xs => x ++ sep ++ joinSep sep (y :: xs)

mutual
/-- Python's `json.dumps` with its default separators `", "` and `": "` and
default `ensure_ascii=True`. -/
def dumps : JVal → List Char
  | .jnull => "null".toList
  | .jbool true => "true".toList
  | .jbool false => "false".toList
  | .jnum n => (toString n).toList
  | .jstr s => dumpsKey s
  | .jarr vs => '[' :: joinSep [',', ' '] (dumpsList vs) ++ [']']
  | .jobj kvs => '{' :: joinSep [',', ' '] (dumpsEntries kvs) ++ ['}']

/-- Serializations of the elements of a JSON array, in order. -/
def dumpsList : List JVal → List (List Char)
  | [] => []
  | v :: vs => dumps v :: dumpsList vs

/-- Serializations `"key": value` of the entries of a JSON object, in order. -/
def dumpsEntries : List (List Char × JVal) → List (List Char)
  | [] => []
  | (k, v) :: kvs => (dumpsKey k ++ ':' :: ' ' :: dumps v) :: dumpsEntries kvs
end

/-- The line-boundary characters of Python's `str.splitlines`. -/
def isLineBreak (c : Char) : Bool :=
  c = '\n' || c = '\r' || c = '\x0b' || c = '\x0c' || c = '\x1c' ||
    c = '\x1d' || c = '\x1e' || c = '\x85' || c = '\u2028' || c = '\u2029'

/-- Worker for `splitlines`: `acc` holds the current line, reversed, and
`skipLF` records that the previous character was `\r`, whose boundary was
already emitted, so that a directly following `\n` is part of the same
`\r\n` boundary and is consumed silently.  A final unterminated line is
emitted only when non-empty, matching CPython. -/
def slGo (acc : List Char) (skipLF : Bool) : List Char → List (List Char)
  | [] => if acc = [] then [] else [acc.reverse]
  | c :: rest =>
    if skipLF = true ∧ c = '\n' then slGo acc false rest
    else if c = '\r' then acc.reverse :: slGo [] true rest
    else if isLineBreak c = true then acc.reverse :: slGo [] false rest
    else slGo (c :: acc) false rest

/-- Python's `text.splitlines()`. -/
def splitlines (text : List Char) : List (List Char) :=
  slGo [] false text

/-- Fuelled worker for `chunkSlices`; `fuel` bounds the recursion depth and
starts at the length of the list, which never increases. -/
def chunkSlicesGo (n : Nat) : Nat → List α → List (List α)
  | _, [] => []
  | 0, _ :: _ => []
  | fuel + 1, x :: xs => (x :: xs.take (n - 1)) :: chunkSlicesGo n fuel (xs.drop (n - 1))

/-- The consecutive slices `lines[i:i+n]` for `i in range(0, len(lines), n)`.
For `n = 0` Python's `range` raises `ValueError`; the claims only concern
`n > 0`, where `take (n-1)` after the forced head gives exactly `take n`. -/
def chunkSlices (n : Nat) (l : List α) : List (List α) :=
  chunkSlicesGo n l.length l

/-- Function `split_into_chunks` from `modernizer.py`:
`["\n".join(lines[i:i+max_lines]) for i in range(0, len(lines), max_lines)]`. -/
def split_into_chunks (text : List Char) (max_lines : Nat := 300) : List (List Char) :=
  (chunkSlices max_lines (splitlines text)).map (joinSep ['\n'])

/-- Result of one `safe_completion` run: the value returned, the
`time.sleep` durations performed (in seconds, in order), and how many
attempts were made.  The function is total: no exception reaches the
caller. -/
structure CallTrace where
  result : JVal
  sleeps : List Nat
  attemptsMade : Nat
  deriving DecidableEq

/-- The `for attempt in range(retries)` loop of `safe_completion`:
`attempt` is the current loop index, `fuel` the iterations left.  A
successful attempt returns the parsed JSON at once; a failed one (the call
raised, or its content did not parse) emits `st.warning` (dropped), sleeps
`2 ** attempt` seconds and continues.  When the loop ends, `st.error` is
emitted (dropped) and the empty dictionary is returned. -/
def scLoop (respond : Nat → Option JVal) : Nat → Nat → CallTrace
  | _, 0 => ⟨.jobj [], [], 0⟩
  | attempt, fuel + 1 =>
    match respond attempt with
    | some v => ⟨v, [], 1⟩
    | none =>
      let t := scLoop respond (attempt + 1) fuel
      ⟨t.result, 2 ^ attempt :: t.sleeps, t.attemptsMade + 1⟩

/-- Function `safe_completion(messages, max_tokens=14000, retries=3)` with the
network determinized by `model` (`max_tokens` only parameterizes the remote
call and is absorbed into the oracle). -/
def safe_completion (messages : List Msg) (model : Model) (retries : Nat := 3) : CallTrace :=
  scLoop (model messages) 0 retries

/-- Function `dedupe_list(existing, new_items)`: append each new item that
is not already present.  Presence is Python's `item not in existing`,
which tests `item == x` for the elements `x` of `existing` — Python `==`,
i.e. `pyEq`, not structural equality.  (The Python mutates `existing` in
place; modelled by returning the extended list.) -/
def dedupe_list (existing new_items : List JVal) : List JVal :=
  new_items.foldl
    (fun acc item => if acc.any (fun x => pyEq item x) then acc else acc ++ [item]) existing

/-- One chunk's parsed model response in phase 1, shaped like the JSON
schema the extraction prompt demands: `purpose` is a string, the other
seven declared keys are lists, each key optionally present. `extraKeys`
lists any further keys of the response object, so that the Python
truthiness test `if not result` (emptiness of the dict) is represented
exactly.  `safe_completion`'s failure value `{}` is the response with no
keys at all. -/
structure ExtractResponse where
  purpose : Option (List Char) := none
  entities : Option (List JVal) := none
  business_rules : Option (List JVal) := none
  control_flow : Option (List JVal) := none
  conditional_flags : Option (List JVal) := none
  file_io_operations : Option (List JVal) := none
  external_calls : Option (List JVal) := none
  data_lineage : Option (List JVal) := none
  extraKeys : List (List Char) := []
  deriving DecidableEq

/-- Python `not result` on the response dict: true iff it has no keys. -/
def ExtractResponse.isEmpty (r : ExtractResponse) : Bool :=
  r.purpose.isNone && r.entities.isNone && r.business_rules.isNone &&
    r.control_flow.isNone && r.conditional_flags.isNone &&
    r.file_io_operations.isNone && r.external_calls.isNone &&
    r.data_lineage.isNone && r.extraKeys.isEmpty

/-- The `aggregated` dictionary of `extract_from_large_cobol`: exactly the
eight keys of its initializer, `purpose` a string and the rest lists. -/
structure Aggregated where
  purpose : List Char
  entities : List JVal
  business_rules : List JVal
  control_flow : List JVal
  conditional_flags : List JVal
  file_io_operations : List JVal
  external_calls : List JVal
  data_lineage : List JVal
  deriving DecidableEq

/-- The initializer of `aggregated` in `extract_from_large_cobol`. -/
def initAggregated : Aggregated :=
  ⟨[], [], [], [], [], [], [], []⟩

/-- The `for key in aggregated` body for one non-empty response: `purpose`
is assigned from the response only while still falsy (the empty string);
every list key is extended in place by `dedupe_list` with the response's
list for that key, absent keys defaulting to `[]` (`result.get(key, [])`). -/
def stepCore (agg : Aggregated) (r : ExtractResponse) : Aggregated where
  purpose := if agg.purpose = [] then r.purpose.getD [] else agg.purpose
  entities := dedupe_list agg.entities (r.entities.getD [])
  business_rules := dedupe_list agg.business_rules (r.business_rules.getD [])
  control_flow := dedupe_list agg.control_flow (r.control_flow.getD [])
  conditional_flags := dedupe_list agg.conditional_flags (r.conditional_flags.getD [])
  file_io_operations := dedupe_list agg.file_io_operations (r.file_io_operations.getD [])
  external_calls := dedupe_list agg.external_calls (r.external_calls.getD [])
  data_lineage := dedupe_list agg.data_lineage (r.data_lineage.getD [])

/-- One loop iteration of `extract_from_large_cobol`: an empty response
(`if not result: continue`) leaves the aggregate unchanged. -/
def stepAgg (agg : Aggregated) (r : ExtractResponse) : Aggregated :=
  if r.isEmpty then agg else stepCore agg r

/-- The aggregation loop of `extract_from_large_cobol` over the per-chunk
responses, in chunk order (the `st.progress` updates are dropped). -/
def extract_aggregate (responses : List ExtractResponse) : Aggregated :=
  responses.foldl stepAgg initAggregated

/-- The extraction system prompt (lines 79–93 of `modernizer.py`). -/
def extractionSysText : List Char :=
  ("\nExtract ALL business-relevant logic from COBOL.\n\nReturn STRICT JSON:\n\x7b\n  \"purpose\": \"\",\n  \"entities\": [],\n  \"business_rules\": [\x7b\"rule_id\": \"\", \"description\": \"\", \"source_lines\": []\x7d],\n  \"control_flow\": [],\n  \"conditional_flags\": [],\n  \"file_io_operations\": [],\n  \"external_calls\": [],\n  \"data_lineage\": []\n\x7d\n").toList

/-- The synthesis system prompt (lines 136–147). -/
def synthesisSysText : List Char :=
  ("\nPreserve ALL business rules exactly.\n\nReturn STRICT JSON:\n\x7b\n  \"process_map\": [],\n  \"business_rules\": [],\n  \"external_dependencies\": [],\n  \"risk_areas\": [],\n  \"data_lineage\": []\n\x7d\n").toList

/-- The modernization-artifact system prompt (lines 161–183). -/
def modernizationSysText : List Char :=
  ("\nGenerate BC modernization artifacts.\n\nReturn STRICT JSON:\n\x7b\n  \"bc_mapping\": \x7b\n      \"tables\": [],\n      \"fields\": [],\n      \"transactions\": [],\n      \"validation_triggers\": [],\n      \"integration_endpoints\": [],\n      \"error_handlers\": []\n  \x7d,\n  \"al_code\": \"\",\n  \"etl_script\": \"\",\n  \"test_cases\": [],\n  \"dependency_map\": [],\n  \"data_lineage_map\": [],\n  \"rule_traceability_matrix\": [],\n  \"business_rule_preservation_percent\": 0,\n  \"modernization_confidence_percent\": 0\n\x7d\n").toList

/-- The BC-configuration system prompt (lines 197–213). -/
def bcConfigSysText : List Char :=
  ("\nGenerate required Business Central configuration checklist.\n\nReturn STRICT JSON:\n\x7b\n  \"environment_setup\": [],\n  \"number_series_setup\": [],\n  \"posting_setup\": [],\n  \"dimension_setup\": [],\n  \"permission_sets\": [],\n  \"integration_setup\": [],\n  \"data_migration_requirements\": [],\n  \"job_queue_setup\": [],\n  \"custom_setup_tables\": [],\n  \"deployment_checklist\": []\n\x7d\n").toList

/-- The per-chunk message list built in the extraction loop. -/
def extract_messages (chunk : List Char) : List Msg :=
  [⟨"system".toList, extractionSysText⟩, ⟨"user".toList, chunk⟩]

/-- Function `extract_from_large_cobol(cobol_code)`: split the source into chunks of
at most 300 lines and aggregate the chunk responses in order.  `oracle i`
stands for the parsed value `safe_completion` returns for chunk `i`. -/
def extract_from_large_cobol (cobol_code : List Char) (oracle : Nat → ExtractResponse) : Aggregated :=
  extract_aggregate ((List.range (split_into_chunks cobol_code 300).length).map oracle)

/-- The aggregated dictionary as the JSON value `json.dumps` receives:
its eight keys in the insertion order of the initializer. -/
def Aggregated.toJson (a : Aggregated) : JVal :=
  .jobj
    [("purpose".toList, .jstr a.purpose),
     ("entities".toList, .jarr a.entities),
     ("business_rules".toList, .jarr a.business_rules),
     ("control_flow".toList, .jarr a.control_flow),
     ("conditional_flags".toList, .jarr a.conditional_flags),
     ("file_io_operations".toList, .jarr a.file_io_operations),
     ("external_calls".toList, .jarr a.external_calls),
     ("data_lineage".toList, .jarr a.data_lineage)]

/-- The message list of `synthesize_model`. -/
def synthesize_messages (extracted : JVal) : List Msg :=
  [⟨"system".toList, synthesisSysText⟩, ⟨"user".toList, dumps extracted⟩]

/-- Function `synthesize_model(extracted)`. -/
def synthesize_model (extracted : JVal) (model : Model) : JVal :=
  (safe_completion (synthesize_messages extracted) model).result

/-- The message list of `generate_modernization_artifacts`. -/
def modernization_messages (synthesized : JVal) : List Msg :=
  [⟨"system".toList, modernizationSysText⟩, ⟨"user".toList, dumps synthesized⟩]

/-- Function `generate_modernization_artifacts(synthesized)`. -/
def generate_modernization_artifacts (synthesized : JVal) (model : Model) : JVal :=
  (safe_completion (modernization_messages synthesized) model).result

/-- The message list of `generate_bc_configuration`: the user content is
the dump of the two-key wrapper dict, in its literal insertion order. -/
def bc_messages (synthesized modernized : JVal) : List Msg :=
  [⟨"system".toList, bcConfigSysText⟩,
   ⟨"user".toList,
     dumps (.jobj [("synthesized".toList, synthesized), ("modernized".toList, modernized)])⟩]

/-- Function `generate_bc_configuration(synthesized, modernized)`. -/
def generate_bc_configuration (synthesized modernized : JVal) (model : Model) : JVal :=
  (safe_completion (bc_messages synthesized modernized) model).result

/-- First value bound to `k` in an object entry list (Python dict lookup;
parsed JSON objects bind each key once). -/
def jLookup (k : List Char) (kvs : List (List Char × JVal)) : Option JVal :=
  (kvs.find? (fun kv => kv.1 = k)).map (fun kv => kv.2)

/-- String payload of a JSON value, if it is a string. -/
def asStr : JVal → Option (List Char)
  | .jstr s => some s
  | _ => none

/-- Element list of a JSON value, if it is an array. -/
def asArr : JVal → Option (List JVal)
  | .jarr vs => some vs
  | _ => none

/-- The declared keys of the extraction schema. -/
def extractionKeys : List (List Char) :=
  ["purpose".toList, "entities".toList, "business_rules".toList, "control_flow".toList,
   "conditional_flags".toList, "file_io_operations".toList, "external_calls".toList,
   "data_lineage".toList]

/-- View of a parsed chunk response (a JSON object conforming to the
declared schema where the eight keys occur) as an `ExtractResponse`. -/
def ExtractResponse.ofJson : JVal → ExtractResponse
  | .jobj kvs =>
    { purpose := (jLookup "purpose".toList kvs).bind asStr
      entities := (jLookup "entities".toList kvs).bind asArr
      business_rules := (jLookup "business_rules".toList kvs).bind asArr
      control_flow := (jLookup "control_flow".toList kvs).bind asArr
      conditional_flags := (jLookup "conditional_flags".toList kvs).bind asArr
      file_io_operations := (jLookup "file_io_operations".toList kvs).bind asArr
      external_calls := (jLookup "external_calls".toList kvs).bind asArr
      data_lineage := (jLookup "data_lineage".toList kvs).bind asArr
      extraKeys := (kvs.map Prod.fst).filter (fun k => k ∉ extractionKeys) }
  | _ => {}

/-- Every `messages` list handed to `safe_completion` during the
`Run Enterprise Modernization` block (lines 292–295), in execution order:
one extraction call per chunk, then synthesis, then modernization
artifacts, then BC configuration, each later phase consuming the earlier
phase's value as in the source. -/
def run_model_calls (cobol_code : List Char) (model : Model) : List (List Msg) :=
  let chunks := split_into_chunks cobol_code 300
  let extracted := extract_from_large_cobol cobol_code
    (fun i => ExtractResponse.ofJson
      (safe_completion (extract_messages (chunks.getD i [])) model).result)
  let synthesized := synthesize_model extracted.toJson model
  let modernized := generate_modernization_artifacts synthesized model
  chunks.map extract_messages ++
    [synthesize_messages extracted.toJson,
     modernization_messages synthesized,
     bc_messages synthesized modernized]

/-- The system prompt of a phase call: content of its first
`role == "system"` message. -/
def sysTextOf (messages : List Msg) : Option (List Char) :=
  (messages.find? (fun m => m.role = "system".toList)).map Msg.content

/-- The user payload of a phase call: content of its first
`role == "user"` message. -/
def userTextOf (messages : List Msg) : List Char :=
  ((messages.find? (fun m => m.role = "user".toList)).map Msg.content).getD []

/-- One rule dictionary as consumed by `calculate_rule_coverage`: only the
keys `rule_id` (a string when present, per the extraction schema) and
`implemented` are consulted; either may be absent. -/
structure RuleObj where
  rule_id : Option (List Char) := none
  implemented : Option JVal := none
  deriving DecidableEq

/-- Comprehension `{r["rule_id"] for r in implemented_rules if r.get("implemented") is True}`:
walk the rules in order; a qualifying rule without a `rule_id` key raises
`KeyError` (modelled as `Except.error`).  A Python set only enters the
computation through membership and cardinality, so it is modelled as the
list of its members (deduplicated where the cardinality is taken). -/
def implementedIdsE : List RuleObj → Except (List Char) (List (List Char))
  | [] => .ok []
  | r :: rs =>
    if r.implemented = some (.jbool true) then
      match r.rule_id with
      | none => .error ("KeyError: rule_id").toList
      | some i => (implementedIdsE rs).map (fun ids => i :: ids)
    else implementedIdsE rs

/-- Round a rational to two decimal places.  Python's `round(x, 2)` acts on
a binary float; over ℚ the computation is exact and the claims at issue
(guards and bounds) are insensitive to the float representation error. -/
def round2 (q : ℚ) : ℚ :=
  (round (q * 100) : ℤ) / 100

/-- Function `calculate_rule_coverage(extracted_rules, implemented_rules)`.  The
result is a number (`Except.ok`) or the `KeyError` described above. -/
def calculate_rule_coverage (extracted_rules implemented_rules : List RuleObj) :
    Except (List Char) ℚ :=
  if extracted_rules = [] then .ok 0
  else
    let extracted_ids := (extracted_rules.filterMap RuleObj.rule_id).dedup
    match implementedIdsE implemented_rules with
    | .error e => .error e
    | .ok implemented_ids =>
      if extracted_ids = [] then .ok 0
      else .ok (round2
        (((extracted_ids.filter (fun i => i ∈ implemented_ids)).length : ℚ) /
          (extracted_ids.length : ℚ) * 100))

/-! Specification-side definitions, written from the claims' wording, to be
compared with the source-side definitions above. -/

/-- Order-preserving duplicate-free union of a list of lists: fold the
lists together, appending an item only when no Python-equal (`pyEq`) item
is already present. -/
def dedupeConcat (ls : List (List JVal)) : List JVal :=
  ls.foldl dedupe_list []

/-- No element of the list is Python-equal (`pyEq`) to another: the sense
in which a deduplicated list "never contains the same item twice" under
the program's own membership test. -/
def pyDistinct (l : List JVal) : Prop :=
  l.Pairwise (fun a b => pyEq a b = false)

/-- First non-empty `purpose` among the given responses (in order), the
empty string when there is none. -/
def firstPurpose (responses : List ExtractResponse) : List Char :=
  ((responses.map (fun r => r.purpose.getD [])).find? (fun p => !p.isEmpty)).getD []

/-- The successful (non-empty) chunk responses of an extraction run, in
chunk order: the responses surviving `if not result: continue`. -/
def successfulResponses (cobol_code : List Char) (oracle : Nat → ExtractResponse) :
    List ExtractResponse :=
  ((List.range (split_into_chunks cobol_code 300).length).map oracle).filter
    (fun r => !r.isEmpty)

/-- Keys of a JSON object (in order); `[]` for non-objects. -/
def objKeys : JVal → List (List Char)
  | .jobj kvs => kvs.map Prod.fst
  | _ => []

/-- Modelled from the spec for refinement claim C6: `safe_completion`
applied, with the default retry count 3, to a two-message list made of a
fixed system prompt and the JSON serialization of the phase input. -/
def spec_phase_call (sysText : List Char) (payload : JVal) (model : Model) : JVal :=
  (safe_completion [⟨"system".toList, sysText⟩, ⟨"user".toList, dumps payload⟩] model 3).result

/-- Claim C3 as stated: every model call of a run belongs to one of the
three phases extraction / synthesis / artifact generation. -/
def three_phase_only (cobol_code : List Char) (model : Model) : Prop :=
  ∀ msgs ∈ run_model_calls cobol_code model,
    sysTextOf msgs = some extractionSysText ∨
      sysTextOf msgs = some synthesisSysText ∨
        sysTextOf msgs = some modernizationSysText

/-- A list with a trailing empty string removed (what re-splitting the
`"\n"`-join of a chunk's lines recovers). -/
def dropTrailingNil (ls : List (List Char)) : List (List Char) :=
  if ls.getLast? = some [] then ls.dropLast else ls

/-- Spec-side rule coverage as the claim words it: the percentage of
distinct extracted `rule_id`s that also occur as the `rule_id` of an
implemented rule whose `implemented` field is exactly `True`, rounded to
two decimals, with 0 for the two degenerate cases. -/
def coverageSpec (extracted_rules implemented_rules : List RuleObj) : ℚ :=
  let extracted_ids := (extracted_rules.filterMap RuleObj.rule_id).dedup
  let implemented_ids :=
    (implemented_rules.filter (fun r => r.implemented = some (.jbool true))).filterMap
      RuleObj.rule_id
  if extracted_rules = [] then 0
  else if extracted_ids = [] then 0
  else round2
    (((extracted_ids.filter (fun i => i ∈ implemented_ids)).length : ℚ) /
      (extracted_ids.length : ℚ) * 100)

/-! ## Lemmas about the retry loop -/

theorem scLoop_attempts_le (respond : Nat → Option JVal) :
    ∀ (fuel start : Nat), (scLoop respond start fuel).attemptsMade ≤ fuel := by
  intro fuel
  induction fuel with
  | zero => intro start; simp [scLoop]
  | succ n ih =>
    intro start
    cases h : respond start with
    | some v => simp [scLoop, h]
    | none =>
      simp only [scLoop, h]
      exact Nat.succ_le_succ (ih _)

theorem scLoop_all_fail (respond : Nat → Option JVal) :
    ∀ (fuel start : Nat), (∀ j, j < fuel → respond (start + j) = none) →
      scLoop respond start fuel =
        ⟨.jobj [], (List.range fuel).map (fun j => 2 ^ (start + j)), fuel⟩ := by
  intro fuel
  induction fuel with
  | zero => intro start _; simp [scLoop]
  | succ n ih =>
    intro start h
    have h0 : respond start = none := by simpa using h 0 (Nat.succ_pos n)
    have hrec := ih (start + 1) (fun j hj => by
      have := h (j + 1) (by omega)
      simpa [Nat.add_comm, Nat.add_left_comm, Nat.add_assoc] using this)
    simp only [scLoop, h0, hrec]
    rw [List.range_succ_eq_map]
    simp [List.map_map, Function.comp_def, Nat.add_comm, Nat.add_left_comm, Nat.add_assoc]

theorem scLoop_success (respond : Nat → Option JVal) :
    ∀ (k fuel start : Nat) (v : JVal), k < fuel → respond (start + k) = some v →
      (∀ j, j < k → respond (start + j) = none) →
      scLoop respond start fuel =
        ⟨v, (List.range k).map (fun j => 2 ^ (start + j)), k + 1⟩ := by
  intro k
  induction k with
  | zero =>
    intro fuel start v hk hv _
    obtain ⟨m, rfl⟩ : ∃ m, fuel = m + 1 := ⟨fuel - 1, by omega⟩
    simp only [Nat.add_zero] at hv
    simp [scLoop, hv]
  | succ n ih =>
    intro fuel start v hk hv hfail
    obtain ⟨m, rfl⟩ : ∃ m, fuel = m + 1 := ⟨fuel - 1, by omega⟩
    have h0 : respond start = none := by simpa using hfail 0 (Nat.succ_pos n)
    have hrec := ih m (start + 1) v (by omega)
      (by simpa [Nat.add_comm, Nat.add_left_comm, Nat.add_assoc] using hv)
      (fun j hj => by
        have := hfail (j + 1) (by omega)
        simpa [Nat.add_comm, Nat.add_left_comm, Nat.add_assoc] using this)
    simp only [scLoop, h0, hrec]
    rw [List.range_succ_eq_map]
    simp [List.map_map, Function.comp_def, Nat.add_comm, Nat.add_left_comm, Nat.add_assoc]

/-- C2: for every message list, `safe_completion` makes at most `retries`
attempts; a first success at attempt `k` (zero-based) returns that
attempt's parsed JSON after `k + 1` attempts, having slept `2^0, …,
2^(k-1)` seconds after the failed attempts; if every attempt fails it
returns the empty dictionary after sleeping `2^0, …, 2^(retries-1)`
seconds, and (by totality of the model function) no exception reaches the
caller. -/
theorem safe_completion_spec (messages : List Msg) (model : Model) (retries : Nat) :
    (safe_completion messages model retries).attemptsMade ≤ retries ∧
      (∀ k v, k < retries → model messages k = some v →
        (∀ j, j < k → model messages j = none) →
          safe_completion messages model retries =
            ⟨v, (List.range k).map (fun j => 2 ^ j), k + 1⟩) ∧
      ((∀ j, j < retries → model messages j = none) →
        safe_completion messages model retries =
          ⟨.jobj [], (List.range retries).map (fun j => 2 ^ j), retries⟩) := by
  refine ⟨scLoop_attempts_le _ _ _, ?_, ?_⟩
  · intro k v hk hv hfail
    have := scLoop_success (model messages) k retries 0 v hk (by simpa using hv)
      (fun j hj => by simpa using hfail j hj)
    simpa using this
  · intro hfail
    have := scLoop_all_fail (model messages) retries 0 (fun j hj => by simpa using hfail j hj)
    simpa using this

theorem safe_completion_spec_witness :
    safe_completion [] (fun _ n => if n = 1 then some .jnull else none) 3 =
      ⟨.jnull, [1], 2⟩ := by
  have h := (safe_completion_spec [] (fun _ n => if n = 1 then some .jnull else none) 3).2.1
    1 .jnull (by omega) rfl
    (fun j hj => by
      have : j = 0 := by omega
      subst this; rfl)
  simpa using h

/-! ## Lemmas about deduplicating aggregation -/

theorem pyEq_symm_aux :
    (∀ a b : JVal, pyEq a b = pyEq b a) ∧
      (∀ _ _ : List (List Char × JVal), True) ∧
      (∀ (_ : List Char) (_ : JVal) (_ : List (List Char × JVal)), True) ∧
      (∀ a b : List JVal, pyEqArr a b = pyEqArr b a) := by
  refine pyEq.mutual_induct (fun a b => pyEq a b = pyEq b a) (fun _ _ => True)
    (fun _ _ _ => True) (fun a b => pyEqArr a b = pyEqArr b a)
    ?_ ?_ ?_ ?_ ?_ ?_ ?_ ?_ ?_ ?_ ?_ ?_ ?_ ?_ ?_ ?_ ?_
  · rfl
  · intro a b; simp only [pyEq]; exact decide_eq_decide.mpr eq_comm
  · intro a n; simp only [pyEq]
  · intro n a; simp only [pyEq]
  · intro a b; simp only [pyEq]; exact decide_eq_decide.mpr eq_comm
  · intro a b; simp only [pyEq]; exact decide_eq_decide.mpr eq_comm
  · intro a b ih; simp only [pyEq]; exact ih
  · intro a b _ _; simp only [pyEq]; exact Bool.and_comm _ _
  · intro t x h1 h2 h3 h4 h5 h6 h7 h8
    cases t <;> cases x <;>
      first
        | exact (h1 rfl rfl).elim
        | exact (h2 _ _ rfl rfl).elim
        | exact (h3 _ _ rfl rfl).elim
        | exact (h4 _ _ rfl rfl).elim
        | exact (h5 _ _ rfl rfl).elim
        | exact (h6 _ _ rfl rfl).elim
        | exact (h7 _ _ rfl rfl).elim
        | exact (h8 _ _ rfl rfl).elim
        | simp only [pyEq]
  · intro _; trivial
  · intro _ _ _ _ _ _; trivial
  · intro _ _; trivial
  · intro _ _ _ _ _; trivial
  · intro _ _ _ _ _ _ _; trivial
  · rfl
  · intro x xs y ys ih1 ih4; simp only [pyEqArr]; rw [ih1, ih4]
  · intro t x h1 h2
    cases t <;> cases x <;>
      first
        | exact (h1 rfl rfl).elim
        | exact (h2 _ _ _ _ rfl rfl).elim
        | simp only [pyEqArr]

theorem pyEq_symm (a b : JVal) : pyEq a b = pyEq b a :=
  pyEq_symm_aux.1 a b

theorem dedupe_list_pyDistinct :
    ∀ (new_items existing : List JVal),
      pyDistinct existing → pyDistinct (dedupe_list existing new_items) := by
  intro new_items
  induction new_items with
  | nil => intro e h; exact h
  | cons x xs ih =>
    intro e h
    show pyDistinct (dedupe_list (if e.any (fun y => pyEq x y) then e else e ++ [x]) xs)
    apply ih
    by_cases hx : e.any (fun y => pyEq x y) = true
    · simpa [hx] using h
    · have hall : ∀ y ∈ e, pyEq x y = false := by simpa using hx
      rw [if_neg hx]
      refine List.pairwise_append.2 ⟨h, List.pairwise_singleton _ _, ?_⟩
      intro a ha b hb
      rcases List.mem_singleton.1 hb with rfl
      rw [pyEq_symm]
      exact hall a ha

theorem foldl_dedupe_pyDistinct {β : Type} (g : β → List JVal) :
    ∀ (l : List β) (acc : List JVal), pyDistinct acc →
      pyDistinct (l.foldl (fun a r => dedupe_list a (g r)) acc) := by
  intro l
  induction l with
  | nil => intro acc h; simpa using h
  | cons r l ih =>
    intro acc h
    rw [List.foldl_cons]
    exact ih _ (dedupe_list_pyDistinct _ _ h)

theorem dedupeConcat_pyDistinct (ls : List (List JVal)) : pyDistinct (dedupeConcat ls) := by
  rw [dedupeConcat]
  exact foldl_dedupe_pyDistinct id ls [] List.Pairwise.nil

theorem foldl_stepAgg_field (f : Aggregated → List JVal) (g : ExtractResponse → List JVal)
    (hcomm : ∀ a r, f (stepCore a r) = dedupe_list (f a) (g r)) :
    ∀ (l : List ExtractResponse) (agg : Aggregated),
      f (l.foldl stepAgg agg) =
        (l.filter (fun r => !r.isEmpty)).foldl (fun acc r => dedupe_list acc (g r)) (f agg) := by
  intro l
  induction l with
  | nil => intro agg; simp
  | cons r l ih =>
    intro agg
    rw [List.foldl_cons, List.filter_cons]
    cases hr : r.isEmpty
    · have hstep : stepAgg agg r = stepCore agg r := by simp [stepAgg, hr]
      simp only [hr, Bool.not_false, if_pos, List.foldl_cons]
      rw [hstep, ih, hcomm]
    · have hstep : stepAgg agg r = agg := by simp [stepAgg, hr]
      simp only [hr, Bool.not_true, if_neg, Bool.false_eq_true, not_false_iff]
      rw [hstep, ih]

theorem extract_field_eq (cobol_code : List Char) (oracle : Nat → ExtractResponse)
    (f : Aggregated → List JVal) (g : ExtractResponse → List JVal)
    (hcomm : ∀ a r, f (stepCore a r) = dedupe_list (f a) (g r))
    (hinit : f initAggregated = []) :
    f (extract_from_large_cobol cobol_code oracle) =
      dedupeConcat ((successfulResponses cobol_code oracle).map g) := by
  rw [extract_from_large_cobol, extract_aggregate, foldl_stepAgg_field f g hcomm, hinit,
    dedupeConcat, List.foldl_map, successfulResponses]

/-- C1: for every COBOL input and every sequence of per-chunk responses,
the aggregate has exactly the eight declared keys; each list-valued key is
the order-preserving union of the corresponding lists of the successful
(non-empty) chunk responses, an item being appended only when no item
already present is Python-equal (`pyEq`, the `==` behind the source's
`item not in existing`) to it — so no list-valued key ever contains the
same item twice in the program's sense: no two of its elements are
Python-equal. -/
theorem extract_from_large_cobol_C1 (cobol_code : List Char) (oracle : Nat → ExtractResponse) :
    objKeys (extract_from_large_cobol cobol_code oracle).toJson = extractionKeys ∧
      (extract_from_large_cobol cobol_code oracle).entities =
        dedupeConcat ((successfulResponses cobol_code oracle).map (fun r => r.entities.getD [])) ∧
      (extract_from_large_cobol cobol_code oracle).business_rules =
        dedupeConcat ((successfulResponses cobol_code oracle).map (fun r => r.business_rules.getD [])) ∧
      (extract_from_large_cobol cobol_code oracle).control_flow =
        dedupeConcat ((successfulResponses cobol_code oracle).map (fun r => r.control_flow.getD [])) ∧
      (extract_from_large_cobol cobol_code oracle).conditional_flags =
        dedupeConcat ((successfulResponses cobol_code oracle).map (fun r => r.conditional_flags.getD [])) ∧
      (extract_from_large_cobol cobol_code oracle).file_io_operations =
        dedupeConcat ((successfulResponses cobol_code oracle).map (fun r => r.file_io_operations.getD [])) ∧
      (extract_from_large_cobol cobol_code oracle).external_calls =
        dedupeConcat ((successfulResponses cobol_code oracle).map (fun r => r.external_calls.getD [])) ∧
      (extract_from_large_cobol cobol_code oracle).data_lineage =
        dedupeConcat ((successfulResponses cobol_code oracle).map (fun r => r.data_lineage.getD [])) ∧
      pyDistinct (extract_from_large_cobol cobol_code oracle).entities ∧
      pyDistinct (extract_from_large_cobol cobol_code oracle).business_rules ∧
      pyDistinct (extract_from_large_cobol cobol_code oracle).control_flow ∧
      pyDistinct (extract_from_large_cobol cobol_code oracle).conditional_flags ∧
      pyDistinct (extract_from_large_cobol cobol_code oracle).file_io_operations ∧
      pyDistinct (extract_from_large_cobol cobol_code oracle).external_calls ∧
      pyDistinct (extract_from_large_cobol cobol_code oracle).data_lineage := by
  have h1 := extract_field_eq cobol_code oracle (fun a => a.entities)
    (fun r => r.entities.getD []) (fun a r => rfl) rfl
  have h2 := extract_field_eq cobol_code oracle (fun a => a.business_rules)
    (fun r => r.business_rules.getD []) (fun a r => rfl) rfl
  have h3 := extract_field_eq cobol_code oracle (fun a => a.control_flow)
    (fun r => r.control_flow.getD []) (fun a r => rfl) rfl
  have h4 := extract_field_eq cobol_code oracle (fun a => a.conditional_flags)
    (fun r => r.conditional_flags.getD []) (fun a r => rfl) rfl
  have h5 := extract_field_eq cobol_code oracle (fun a => a.file_io_operations)
    (fun r => r.file_io_operations.getD []) (fun a r => rfl) rfl
  have h6 := extract_field_eq cobol_code oracle (fun a => a.external_calls)
    (fun r => r.external_calls.getD []) (fun a r => rfl) rfl
  have h7 := extract_field_eq cobol_code oracle (fun a => a.data_lineage)
    (fun r => r.data_lineage.getD []) (fun a r => rfl) rfl
  exact ⟨rfl, h1, h2, h3, h4, h5, h6, h7,
    by rw [show (extract_from_large_cobol cobol_code oracle).entities = _ from h1]
       exact dedupeConcat_pyDistinct _,
    by rw [show (extract_from_large_cobol cobol_code oracle).business_rules = _ from h2]
       exact dedupeConcat_pyDistinct _,
    by rw [show (extract_from_large_cobol cobol_code oracle).control_flow = _ from h3]
       exact dedupeConcat_pyDistinct _,
    by rw [show (extract_from_large_cobol cobol_code oracle).conditional_flags = _ from h4]
       exact dedupeConcat_pyDistinct _,
    by rw [show (extract_from_large_cobol cobol_code oracle).file_io_operations = _ from h5]
       exact dedupeConcat_pyDistinct _,
    by rw [show (extract_from_large_cobol cobol_code oracle).external_calls = _ from h6]
       exact dedupeConcat_pyDistinct _,
    by rw [show (extract_from_large_cobol cobol_code oracle).data_lineage = _ from h7]
       exact dedupeConcat_pyDistinct _⟩

/-! ## Lemmas about the `purpose` key -/

theorem foldl_stepAgg_purpose_stay :
    ∀ (l : List ExtractResponse) (a : Aggregated),
      a.purpose ≠ [] → (l.foldl stepAgg a).purpose = a.purpose := by
  intro l
  induction l with
  | nil => intro a _; rfl
  | cons r l ih =>
    intro a ha
    rw [List.foldl_cons]
    cases hr : r.isEmpty
    · have hstep : (stepAgg a r).purpose = a.purpose := by simp [stepAgg, hr, stepCore, ha]
      rw [ih (stepAgg a r) (by rw [hstep]; exact ha), hstep]
    · have hstep : stepAgg a r = a := by simp [stepAgg, hr]
      rw [hstep]
      exact ih a ha

theorem foldl_stepAgg_purpose_first :
    ∀ (l : List ExtractResponse) (a : Aggregated),
      a.purpose = [] →
      (l.foldl stepAgg a).purpose = firstPurpose (l.filter (fun r => !r.isEmpty)) := by
  intro l
  induction l with
  | nil => intro a ha; simpa [firstPurpose] using ha
  | cons r l ih =>
    intro a ha
    rw [List.foldl_cons, List.filter_cons]
    cases hr : r.isEmpty
    · have hstep : stepAgg a r = stepCore a r := by simp [stepAgg, hr]
      have hpur : (stepCore a r).purpose = r.purpose.getD [] := by simp [stepCore, ha]
      simp only [hr, Bool.not_false, if_pos]
      rw [hstep]
      by_cases hp : r.purpose.getD [] = []
      · rw [ih _ (by rw [hpur]; exact hp)]
        simp [firstPurpose, List.find?_cons, hp]
      · rw [foldl_stepAgg_purpose_stay l _ (by rw [hpur]; exact hp), hpur]
        have hne : (r.purpose.getD []).isEmpty = false := by
          simpa [List.isEmpty_iff] using hp
        simp [firstPurpose, List.find?_cons, hne]
    · have hstep : stepAgg a r = a := by simp [stepAgg, hr]
      simp only [hr, Bool.not_true, if_neg, Bool.false_eq_true, not_false_iff]
      rw [hstep]
      exact ih a ha

/-- C8: the aggregate's `purpose` is the first non-empty `purpose` among
the successful chunk responses, in chunk order, and the empty string when
none of them carries a non-empty `purpose`; in particular a later chunk
never overwrites an earlier non-empty `purpose`. -/
theorem extract_purpose_C8 (cobol_code : List Char) (oracle : Nat → ExtractResponse) :
    (extract_from_large_cobol cobol_code oracle).purpose =
      firstPurpose (successfulResponses cobol_code oracle) := by
  rw [extract_from_large_cobol, extract_aggregate, successfulResponses]
  exact foldl_stepAgg_purpose_first _ _ rfl

/-! ## Empty responses contribute nothing -/

theorem extract_aggregate_skip (l₁ l₂ : List ExtractResponse) (e : ExtractResponse)
    (he : e.isEmpty = true) :
    extract_aggregate (l₁ ++ e :: l₂) = extract_aggregate (l₁ ++ l₂) := by
  rw [extract_aggregate, extract_aggregate, List.foldl_append, List.foldl_append,
    List.foldl_cons]
  have hstep : stepAgg (l₁.foldl stepAgg initAggregated) e = l₁.foldl stepAgg initAggregated := by
    simp [stepAgg, he]
  rw [hstep]

/-- C5: a chunk whose `safe_completion` result is the empty dictionary is
skipped (`if not result: continue`): the aggregate equals the one computed
with that chunk's response deleted from the response sequence, the other
chunks still being processed, and (the functions being total) no exception
escapes. -/
theorem extract_empty_chunk_C5 (cobol_code : List Char) (oracle : Nat → ExtractResponse)
    (i : Nat) (hi : i < (split_into_chunks cobol_code 300).length)
    (he : (oracle i).isEmpty = true) :
    extract_from_large_cobol cobol_code oracle =
      extract_aggregate
        (((List.range (split_into_chunks cobol_code 300).length).map oracle).eraseIdx i) := by
  set n := (split_into_chunks cobol_code 300).length with hn
  set l := (List.range n).map oracle with hl
  have hi' : i < l.length := by simpa [hl] using hi
  have h1 : l.take i ++ l.drop i = l := List.take_append_drop i l
  have h2 : l.drop i = l[i] :: l.drop (i + 1) := List.drop_eq_getElem_cons hi'
  have hgi : l[i] = oracle i := by simp [hl]
  have hskip : extract_aggregate l = extract_aggregate (l.take i ++ l.drop (i + 1)) := by
    conv_lhs => rw [← h1, h2, hgi]
    exact extract_aggregate_skip _ _ _ he
  rw [extract_from_large_cobol, ← hl, hskip, List.eraseIdx_eq_take_drop_succ]

theorem extract_empty_chunk_C5_witness :
    extract_from_large_cobol ("X".toList) (fun _ => {}) =
      extract_aggregate
        (((List.range (split_into_chunks ("X".toList) 300).length).map
          (fun _ => ({} : ExtractResponse))).eraseIdx 0) :=
  extract_empty_chunk_C5 ("X".toList) (fun _ => {}) 0 (by decide) (by decide)

/-! ## Phase glue: uniform shape and key accumulation -/

/-- C6: the three later phases are each `safe_completion` with the default
retry count 3 on a two-message list — a fixed system prompt plus the JSON
serialization of the phase input — differing only in the prompt text and
in how the input dictionaries are wrapped before serialization. -/
theorem phases_uniform_C6 :
    (∀ (extracted : JVal) (model : Model),
        synthesize_model extracted model = spec_phase_call synthesisSysText extracted model) ∧
      (∀ (synthesized : JVal) (model : Model),
        generate_modernization_artifacts synthesized model =
          spec_phase_call modernizationSysText synthesized model) ∧
      (∀ (synthesized modernized : JVal) (model : Model),
        generate_bc_configuration synthesized modernized model =
          spec_phase_call bcConfigSysText
            (.jobj [("synthesized".toList, synthesized), ("modernized".toList, modernized)])
            model) :=
  ⟨fun _ _ => rfl, fun _ _ => rfl, fun _ _ _ => rfl⟩

theorem infix_joinSep_of_mem {sep x : List Char} :
    ∀ {ls : List (List Char)}, x ∈ ls → x <:+: joinSep sep ls := by
  intro ls
  induction ls with
  | nil => intro h; cases h
  | cons y ys ih =>
    intro h
    rcases List.mem_cons.1 h with rfl | hmem
    · cases ys with
      | nil => exact List.infix_refl x
      | cons z zs => exact ⟨[], sep ++ joinSep sep (z :: zs), by simp [joinSep]⟩
    · cases ys with
      | nil => cases hmem
      | cons z zs =>
        exact (ih hmem).trans ⟨y ++ sep, [], by simp [joinSep]⟩

theorem dumpsEntries_eq_map :
    ∀ kvs : List (List Char × JVal),
      dumpsEntries kvs = kvs.map (fun kv => dumpsKey kv.1 ++ ':' :: ' ' :: dumps kv.2) := by
  intro kvs
  induction kvs with
  | nil => rfl
  | cons kv kvs ih =>
    obtain ⟨k, v⟩ := kv
    simp [dumpsEntries, ih]

theorem key_infix_dumps_jobj {k : List Char} {v : JVal} {kvs : List (List Char × JVal)}
    (h : (k, v) ∈ kvs) : dumpsKey k <:+: dumps (.jobj kvs) := by
  have hm : (dumpsKey k ++ ':' :: ' ' :: dumps v) ∈ dumpsEntries kvs := by
    rw [dumpsEntries_eq_map]
    exact List.mem_map_of_mem _ h
  have h1 : dumpsKey k <:+: (dumpsKey k ++ ':' :: ' ' :: dumps v) :=
    ⟨[], ':' :: ' ' :: dumps v, by simp⟩
  have h3 : joinSep [',', ' '] (dumpsEntries kvs) <:+: dumps (.jobj kvs) :=
    ⟨['\x7b'], ['\x7d'], by simp [dumps]⟩
  exact (h1.trans (infix_joinSep_of_mem hm)).trans h3

theorem val_infix_dumps_jobj {k : List Char} {v : JVal} {kvs : List (List Char × JVal)}
    (h : (k, v) ∈ kvs) : dumps v <:+: dumps (.jobj kvs) := by
  have hm : (dumpsKey k ++ ':' :: ' ' :: dumps v) ∈ dumpsEntries kvs := by
    rw [dumpsEntries_eq_map]
    exact List.mem_map_of_mem _ h
  have h1 : dumps v <:+: (dumpsKey k ++ ':' :: ' ' :: dumps v) :=
    ⟨dumpsKey k ++ [':', ' '], [], by simp⟩
  have h3 : joinSep [',', ' '] (dumpsEntries kvs) <:+: dumps (.jobj kvs) :=
    ⟨['\x7b'], ['\x7d'], by simp [dumps]⟩
  exact (h1.trans (infix_joinSep_of_mem hm)).trans h3

theorem userTextOf_synthesize_messages (x : JVal) :
    userTextOf (synthesize_messages x) = dumps x := rfl

theorem userTextOf_modernization_messages (x : JVal) :
    userTextOf (modernization_messages x) = dumps x := rfl

theorem userTextOf_bc_messages (s m : JVal) :
    userTextOf (bc_messages s m) =
      dumps (.jobj [("synthesized".toList, s), ("modernized".toList, m)]) := rfl

/-- C4: keys accumulate along the chain extract → synthesize → generate →
bc-config: every key of a phase's output dictionary occurs (in its JSON
string serialization, quoted and escaped) inside the serialized user
message handed to the next phase's model call. -/
theorem keys_accumulate_C4 :
    (∀ (agg : Aggregated), ∀ k ∈ objKeys agg.toJson,
        dumpsKey k <:+: userTextOf (synthesize_messages agg.toJson)) ∧
      (∀ (kvs : List (List Char × JVal)), ∀ k ∈ objKeys (.jobj kvs),
        dumpsKey k <:+: userTextOf (modernization_messages (.jobj kvs))) ∧
      (∀ (synthesized : JVal) (kvs : List (List Char × JVal)), ∀ k ∈ objKeys (.jobj kvs),
        dumpsKey k <:+: userTextOf (bc_messages synthesized (.jobj kvs))) := by
  refine ⟨?_, ?_, ?_⟩
  · intro agg k hk
    rw [userTextOf_synthesize_messages]
    simp only [Aggregated.toJson, objKeys, List.mem_map] at hk
    obtain ⟨⟨k', v⟩, hmem, rfl⟩ := hk
    exact key_infix_dumps_jobj hmem
  · intro kvs k hk
    rw [userTextOf_modernization_messages]
    simp only [objKeys, List.mem_map] at hk
    obtain ⟨⟨k', v⟩, hmem, rfl⟩ := hk
    exact key_infix_dumps_jobj hmem
  · intro synthesized kvs k hk
    rw [userTextOf_bc_messages]
    simp only [objKeys, List.mem_map] at hk
    obtain ⟨⟨k', v⟩, hmem, rfl⟩ := hk
    have h1 := key_infix_dumps_jobj hmem
    have h2 : dumps (.jobj kvs) <:+:
        dumps (.jobj [("synthesized".toList, synthesized), ("modernized".toList, .jobj kvs)]) :=
      @val_infix_dumps_jobj ("modernized".toList) (.jobj kvs)
        [("synthesized".toList, synthesized), ("modernized".toList, .jobj kvs)] (by simp)
    exact h1.trans h2

theorem keys_accumulate_C4_witness :
    (dumpsKey ("purpose".toList) <:+: userTextOf (synthesize_messages initAggregated.toJson)) ∧
      (dumpsKey ("a".toList) <:+:
        userTextOf (modernization_messages (.jobj [("a".toList, .jnull)]))) ∧
      (dumpsKey ("b".toList) <:+:
        userTextOf (bc_messages .jnull (.jobj [("b".toList, .jnum 0)]))) :=
  ⟨keys_accumulate_C4.1 initAggregated ("purpose".toList) (by decide),
   keys_accumulate_C4.2.1 [("a".toList, .jnull)] ("a".toList) (by decide),
   keys_accumulate_C4.2.2 .jnull [("b".toList, .jnum 0)] ("b".toList) (by decide)⟩

/-! ## The run block’s model-call trace -/

theorem sysTextOf_extract_messages (chunk : List Char) :
    sysTextOf (extract_messages chunk) = some extractionSysText := rfl

theorem sysTextOf_synthesize_messages (x : JVal) :
    sysTextOf (synthesize_messages x) = some synthesisSysText := rfl

theorem sysTextOf_modernization_messages (x : JVal) :
    sysTextOf (modernization_messages x) = some modernizationSysText := rfl

theorem sysTextOf_bc_messages (s m : JVal) :
    sysTextOf (bc_messages s m) = some bcConfigSysText := rfl

/-- C3 amended: a run executes exactly FOUR ordered model-calling phases:
the per-chunk extraction calls, then one synthesis call, then one
modernization-artifact call, then one BC-configuration call — identified
by their system prompts, in that order, and nothing else. -/
theorem run_phases_C3 (cobol_code : List Char) (model : Model) :
    (run_model_calls cobol_code model).map sysTextOf =
      List.replicate (split_into_chunks cobol_code 300).length (some extractionSysText) ++
        [some synthesisSysText, some modernizationSysText, some bcConfigSysText] := by
  simp [run_model_calls, List.map_map, Function.comp_def, sysTextOf_extract_messages,
    sysTextOf_synthesize_messages, sysTextOf_modernization_messages, sysTextOf_bc_messages,
    List.map_const']

set_option maxRecDepth 100000 in
/-- C3 as stated is false: with a one-line input and a model whose calls
all fail, the run still makes a fourth model call, the BC-configuration
one, whose system prompt is none of the three claimed phases. -/
theorem run_phases_C3_cex : ¬ three_phase_only ("X".toList) (fun _ _ => none) := by
  unfold three_phase_only
  decide

/-! ## Chunking and line splitting -/

theorem chunkSlicesGo_flatten {α : Type} (n : Nat) :
    ∀ (fuel : Nat) (l : List α), l.length ≤ fuel → (chunkSlicesGo n fuel l).flatten = l := by
  intro fuel
  induction fuel with
  | zero =>
    intro l hl
    cases l with
    | nil => rfl
    | cons x xs => simp at hl
  | succ m ih =>
    intro l hl
    cases l with
    | nil => rfl
    | cons x xs =>
      show ((x :: xs.take (n - 1)) :: chunkSlicesGo n m (xs.drop (n - 1))).flatten = x :: xs
      rw [List.flatten_cons, ih (xs.drop (n - 1)) (by simp at hl ⊢; omega)]
      simp [List.take_append_drop]

theorem chunkSlices_flatten {α : Type} (n : Nat) (l : List α) :
    (chunkSlices n l).flatten = l :=
  chunkSlicesGo_flatten n l.length l le_rfl

theorem length_le_of_mem_chunkSlicesGo {α : Type} (n : Nat) (hn : 0 < n) :
    ∀ (fuel : Nat) (l : List α), ∀ s ∈ chunkSlicesGo n fuel l, s.length ≤ n := by
  intro fuel
  induction fuel with
  | zero =>
    intro l s hs
    cases l <;> simp [chunkSlicesGo] at hs
  | succ m ih =>
    intro l s hs
    cases l with
    | nil => simp [chunkSlicesGo] at hs
    | cons x xs =>
      rcases List.mem_cons.1 hs with rfl | hs'
      · simp [List.length_take]
        omega
      · exact ih _ s hs'

theorem mem_of_mem_chunkSlicesGo {α : Type} (n : Nat) :
    ∀ (fuel : Nat) (l : List α) (s : List α), s ∈ chunkSlicesGo n fuel l → ∀ x ∈ s, x ∈ l := by
  intro fuel
  induction fuel with
  | zero =>
    intro l s hs
    cases l <;> simp [chunkSlicesGo] at hs
  | succ m ih =>
    intro l s hs x hx
    cases l with
    | nil => simp [chunkSlicesGo] at hs
    | cons y ys =>
      rcases List.mem_cons.1 hs with rfl | hs'
      · rcases List.mem_cons.1 hx with rfl | hx'
        · exact List.mem_cons_self x ys
        · exact List.mem_cons_of_mem y (List.take_subset _ _ hx')
      · exact List.mem_cons_of_mem y (List.drop_subset _ _ (ih _ s hs' x hx))

theorem slGo_clean :
    ∀ (t acc : List Char) (skip : Bool),
      (∀ c ∈ acc, isLineBreak c = false) →
      ∀ l ∈ slGo acc skip t, ∀ c ∈ l, isLineBreak c = false := by
  intro t
  induction t with
  | nil =>
    intro acc skip hacc l hl c hc
    rw [slGo] at hl
    split at hl
    · cases hl
    · rcases List.mem_singleton.1 hl with rfl
      exact hacc c (by simpa using hc)
  | cons d rest ih =>
    intro acc skip hacc l hl c hc
    rw [slGo] at hl
    split_ifs at hl with h1 h2 h3
    · exact ih acc false hacc l hl c hc
    · rcases List.mem_cons.1 hl with rfl | hl'
      · exact hacc c (by simpa using hc)
      · exact ih [] true (by intro e he; cases he) l hl' c hc
    · rcases List.mem_cons.1 hl with rfl | hl'
      · exact hacc c (by simpa using hc)
      · exact ih [] false (by intro e he; cases he) l hl' c hc
    · refine ih (d :: acc) false ?_ l hl c hc
      intro e he
      rcases List.mem_cons.1 he with rfl | he'
      · exact Bool.not_eq_true _ ▸ (by simpa using h3)
      · exact hacc e he'

theorem splitlines_clean (text : List Char) :
    ∀ l ∈ splitlines text, ∀ c ∈ l, isLineBreak c = false :=
  slGo_clean text [] false (by intro c hc; cases hc)

theorem slGo_append_clean :
    ∀ (x acc rest : List Char), (∀ c ∈ x, isLineBreak c = false) →
      slGo acc false (x ++ rest) = slGo (x.reverse ++ acc) false rest := by
  intro x
  induction x with
  | nil => intro acc rest _; simp
  | cons d xs ih =>
    intro acc rest hx
    have hd : isLineBreak d = false := hx d (List.mem_cons_self d xs)
    have hdr : ¬d = '\r' := by
      intro h
      rw [h] at hd
      simp [isLineBreak] at hd
    rw [List.cons_append]
    show slGo acc false (d :: (xs ++ rest)) = _
    rw [slGo]
    rw [if_neg (by simp), if_neg hdr, if_neg (by simp [hd])]
    rw [ih (d :: acc) rest (fun c hc => hx c (List.mem_cons_of_mem d hc))]
    have harr : xs.reverse ++ (d :: acc) = (d :: xs).reverse ++ acc := by
      simp
    rw [harr]

theorem splitlines_single_clean (x : List Char)
    (hx : ∀ c ∈ x, isLineBreak c = false) :
    splitlines x = if x = [] then [] else [x] := by
  have h := slGo_append_clean x [] [] hx
  rw [List.append_nil] at h
  rw [splitlines, h, slGo]
  simp

theorem splitlines_joinSep_clean :
    ∀ (s : List (List Char)), (∀ l ∈ s, ∀ c ∈ l, isLineBreak c = false) →
      splitlines (joinSep ['\n'] s) = dropTrailingNil s := by
  intro s
  induction s with
  | nil => intro _; rfl
  | cons x s ih =>
    intro h
    cases s with
    | nil =>
      show splitlines x = dropTrailingNil [x]
      rw [splitlines_single_clean x (h x (List.mem_cons_self x []))]
      by_cases hx : x = []
      · simp [dropTrailingNil, hx]
      · simp [dropTrailingNil, hx]
    | cons y s' =>
      have hx := h x (List.mem_cons_self x _)
      have hjoin : joinSep ['\n'] (x :: y :: s') = x ++ '\n' :: joinSep ['\n'] (y :: s') := by
        simp [joinSep]
      rw [splitlines, hjoin, slGo_append_clean x [] _ hx, List.append_nil]
      rw [slGo]
      rw [if_neg (by simp), if_neg (by decide), if_pos (by decide)]
      rw [List.reverse_reverse]
      have hrec := ih (fun l hl => h l (List.mem_cons_of_mem x hl))
      rw [splitlines] at hrec
      rw [hrec]
      by_cases hcond : (y :: s').getLast? = some ([] : List Char)
      · simp [dropTrailingNil, List.getLast?_cons_cons, hcond, List.dropLast]
      · simp [dropTrailingNil, List.getLast?_cons_cons, hcond]

/-- C7 as stated is false: for the text `"\n"` (whose `splitlines` is one
empty line) the single chunk is the empty string, and re-splitting it and
concatenating yields the empty line list, not `splitlines(text)`. -/
theorem split_into_chunks_C7_cex :
    ((split_into_chunks ("\n".toList) 300).map splitlines).flatten ≠
      splitlines ("\n".toList) := by decide

/-- C7 amended: every chunk re-splits into at most `max_lines` lines; the
chunks are the `"\n"`-joins of consecutive slices of `splitlines(text)`
whose concatenation is exactly `splitlines(text)`; re-splitting a chunk
recovers its slice except that a trailing empty line of the slice is
dropped; and an empty `splitlines` yields no chunks. -/
theorem split_into_chunks_C7 (text : List Char) (n : Nat) (hn : 0 < n) :
    (∀ c ∈ split_into_chunks text n, (splitlines c).length ≤ n) ∧
      (chunkSlices n (splitlines text)).flatten = splitlines text ∧
      (∀ s ∈ chunkSlices n (splitlines text),
        splitlines (joinSep ['\n'] s) = dropTrailingNil s) ∧
      (splitlines text = [] → split_into_chunks text n = []) := by
  have hslices_clean : ∀ s ∈ chunkSlices n (splitlines text), ∀ c ∈ s, ∀ ch ∈ c,
      isLineBreak ch = false := by
    intro s hs c hc
    exact splitlines_clean text c (mem_of_mem_chunkSlicesGo n _ _ s hs c hc)
  refine ⟨?_, chunkSlices_flatten n _, ?_, ?_⟩
  · intro c hc
    simp only [split_into_chunks, List.mem_map] at hc
    obtain ⟨s, hs, rfl⟩ := hc
    rw [splitlines_joinSep_clean s (hslices_clean s hs)]
    have hlen := length_le_of_mem_chunkSlicesGo n hn _ _ s hs
    have hdrop : (dropTrailingNil s).length ≤ s.length := by
      rw [dropTrailingNil]
      split
      · simp [List.length_dropLast]
      · exact le_rfl
    omega
  · intro s hs
    exact splitlines_joinSep_clean s (hslices_clean s hs)
  · intro hempty
    rw [split_into_chunks, hempty]
    rfl

theorem split_into_chunks_C7_witness :
    (∀ c ∈ split_into_chunks ("a\nb\n\nc".toList) 2, (splitlines c).length ≤ 2) ∧
      (chunkSlices 2 (splitlines ("a\nb\n\nc".toList))).flatten =
        splitlines ("a\nb\n\nc".toList) ∧
      (∀ s ∈ chunkSlices 2 (splitlines ("a\nb\n\nc".toList)),
        splitlines (joinSep ['\n'] s) = dropTrailingNil s) ∧
      (splitlines ("a\nb\n\nc".toList) = [] → split_into_chunks ("a\nb\n\nc".toList) 2 = []) :=
  split_into_chunks_C7 ("a\nb\n\nc".toList) 2 (by decide)

/-! ## Rule coverage -/

theorem implementedIdsE_ok :
    ∀ (l : List RuleObj),
      (∀ r ∈ l, r.implemented = some (.jbool true) → r.rule_id.isSome = true) →
      implementedIdsE l =
        .ok ((l.filter (fun r => r.implemented = some (.jbool true))).filterMap
          RuleObj.rule_id) := by
  intro l
  induction l with
  | nil => intro _; rfl
  | cons r rs ih =>
    intro h
    have ih' := ih (fun x hx => h x (List.mem_cons_of_mem r hx))
    by_cases hr : r.implemented = some (.jbool true)
    · obtain ⟨i, hi⟩ := Option.isSome_iff_exists.1 (h r (List.mem_cons_self r rs) hr)
      simp [implementedIdsE, hr, hi, ih', List.filter_cons, List.filterMap_cons, Except.map]
    · simp [implementedIdsE, hr, ih', List.filter_cons]

theorem round2_bounds (q : ℚ) (h0 : 0 ≤ q) (h1 : q ≤ 100) :
    0 ≤ round2 q ∧ round2 q ≤ 100 := by
  rw [round2]
  constructor
  · apply div_nonneg _ (by norm_num)
    have hr : (0 : ℤ) ≤ round (q * 100) := by
      rw [round_eq]
      apply Int.floor_nonneg.2
      have : (0 : ℚ) ≤ q * 100 := mul_nonneg h0 (by norm_num)
      linarith
    exact_mod_cast hr
  · rw [div_le_iff₀ (by norm_num : (0 : ℚ) < 100)]
    have h2 : round (q * 100) ≤ 10000 := by
      rw [round_eq]
      have hq : q * 100 ≤ 10000 := by
        have := mul_le_mul_of_nonneg_right h1 (by norm_num : (0 : ℚ) ≤ 100)
        linarith
      calc ⌊q * 100 + 1 / 2⌋ ≤ ⌊(10000 : ℚ) + 1 / 2⌋ := Int.floor_le_floor (by linarith)
        _ = 10000 := by
          apply Int.floor_eq_iff.2
          constructor <;> norm_num
    calc ((round (q * 100) : ℤ) : ℚ) ≤ ((10000 : ℤ) : ℚ) := by exact_mod_cast h2
      _ = 100 * 100 := by norm_num

/-- C9 as stated is false: `calculate_rule_coverage` can fail to return a
number at all.  With one extracted rule carrying a `rule_id` and one
implemented rule whose `implemented` is `True` but which has no `rule_id`
key, the set comprehension over implemented rules raises `KeyError`. -/
theorem calculate_rule_coverage_C9_cex :
    calculate_rule_coverage [{ rule_id := some ("R1".toList) }]
        [{ implemented := some (.jbool true) }] =
      .error (("KeyError: rule_id").toList) := rfl

/-- C9 amended: provided every implemented rule whose `implemented` field
is exactly `True` carries a `rule_id` key (otherwise a `KeyError`
propagates), the function divides by zero never: it returns 0 when
`extracted_rules` is empty or no extracted rule carries a `rule_id`, and
otherwise the percentage of distinct extracted `rule_id`s implemented,
rounded to two decimals — a value between 0 and 100 inclusive. -/
theorem calculate_rule_coverage_C9 (extracted_rules implemented_rules : List RuleObj)
    (h : ∀ r ∈ implemented_rules, r.implemented = some (.jbool true) →
      r.rule_id.isSome = true) :
    calculate_rule_coverage extracted_rules implemented_rules =
        .ok (coverageSpec extracted_rules implemented_rules) ∧
      0 ≤ coverageSpec extracted_rules implemented_rules ∧
      coverageSpec extracted_rules implemented_rules ≤ 100 ∧
      (extracted_rules = [] → coverageSpec extracted_rules implemented_rules = 0) ∧
      (extracted_rules.filterMap RuleObj.rule_id = [] →
        coverageSpec extracted_rules implemented_rules = 0) := by
  have hids := implementedIdsE_ok implemented_rules h
  refine ⟨?_, ?_, ?_, ?_, ?_⟩
  · by_cases he : extracted_rules = []
    · simp [calculate_rule_coverage, coverageSpec, he]
    · rw [calculate_rule_coverage, coverageSpec, hids]
      by_cases hid : (extracted_rules.filterMap RuleObj.rule_id).dedup = []
      · simp [he, hid]
      · simp [he, hid]
  · by_cases he : extracted_rules = []
    · simp [coverageSpec, he]
    · by_cases hid : (extracted_rules.filterMap RuleObj.rule_id).dedup = []
      · simp [coverageSpec, he, hid]
      · rw [coverageSpec]
        simp only [he, hid, if_neg, if_false]
        refine (round2_bounds _ ?_ ?_).1
        · apply mul_nonneg _ (by norm_num)
          apply div_nonneg <;> positivity
        · have hpos : 0 < ((extracted_rules.filterMap RuleObj.rule_id).dedup.length : ℚ) := by
            have := List.length_pos.2 hid
            exact_mod_cast this
          have hle : (((extracted_rules.filterMap RuleObj.rule_id).dedup.filter
              (fun i => i ∈ (implemented_rules.filter
                (fun r => r.implemented = some (.jbool true))).filterMap
                  RuleObj.rule_id)).length : ℚ) ≤
              ((extracted_rules.filterMap RuleObj.rule_id).dedup.length : ℚ) := by
            exact_mod_cast List.length_filter_le _ _
          rw [div_mul_eq_mul_div, div_le_iff₀ hpos]
          nlinarith
  · by_cases he : extracted_rules = []
    · simp [coverageSpec, he]
    · by_cases hid : (extracted_rules.filterMap RuleObj.rule_id).dedup = []
      · simp [coverageSpec, he, hid]
      · rw [coverageSpec]
        simp only [he, hid, if_neg, if_false]
        refine (round2_bounds _ ?_ ?_).2
        · apply mul_nonneg _ (by norm_num)
          apply div_nonneg <;> positivity
        · have hpos : 0 < ((extracted_rules.filterMap RuleObj.rule_id).dedup.length : ℚ) := by
            have := List.length_pos.2 hid
            exact_mod_cast this
          have hle : (((extracted_rules.filterMap RuleObj.rule_id).dedup.filter
              (fun i => i ∈ (implemented_rules.filter
                (fun r => r.implemented = some (.jbool true))).filterMap
                  RuleObj.rule_id)).length : ℚ) ≤
              ((extracted_rules.filterMap RuleObj.rule_id).dedup.length : ℚ) := by
            exact_mod_cast List.length_filter_le _ _
          rw [div_mul_eq_mul_div, div_le_iff₀ hpos]
          nlinarith
  · intro he
    simp [coverageSpec, he]
  · intro hfm
    by_cases he : extracted_rules = []
    · simp [coverageSpec, he]
    · simp [coverageSpec, he, hfm]

theorem calculate_rule_coverage_C9_witness :
    (calculate_rule_coverage [{ rule_id := some ("R1".toList) }, { rule_id := some ("R2".toList) }]
        [{ rule_id := some ("R1".toList), implemented := some (.jbool true) }] =
        .ok (coverageSpec [{ rule_id := some ("R1".toList) }, { rule_id := some ("R2".toList) }]
          [{ rule_id := some ("R1".toList), implemented := some (.jbool true) }]) ∧
      0 ≤ coverageSpec [{ rule_id := some ("R1".toList) }, { rule_id := some ("R2".toList) }]
        [{ rule_id := some ("R1".toList), implemented := some (.jbool true) }] ∧
      coverageSpec [{ rule_id := some ("R1".toList) }, { rule_id := some ("R2".toList) }]
          [{ rule_id := some ("R1".toList), implemented := some (.jbool true) }] ≤ 100 ∧
      ([{ rule_id := some ("R1".toList) }, { rule_id := some ("R2".toList) }] = ([] : List RuleObj) →
        coverageSpec [{ rule_id := some ("R1".toList) }, { rule_id := some ("R2".toList) }]
          [{ rule_id := some ("R1".toList), implemented := some (.jbool true) }] = 0) ∧
      ([{ rule_id := some ("R1".toList) }, { rule_id := some ("R2".toList) }].filterMap
          RuleObj.rule_id = [] →
        coverageSpec [{ rule_id := some ("R1".toList) }, { rule_id := some ("R2".toList) }]
          [{ rule_id := some ("R1".toList), implemented := some (.jbool true) }] = 0)) :=
  calculate_rule_coverage_C9
    [{ rule_id := some ("R1".toList) }, { rule_id := some ("R2".toList) }]
    [{ rule_id := some ("R1".toList), implemented := some (.jbool true) }]
    (by decide)

end Modernizer
